import Mathlib

/-!
Shallow embedding of the natural-language data-manipulation core of the
Digitalz spreadsheet processor (React/TypeScript).  The embedded functions
mirror, operation by operation:

* `NaturalLanguageDataModifier.tsx`: `normalize`, `parseCommand`,
  `applyModification`, `evaluateCondition`, `transformValue`;
* `RuleBuilder.tsx` (listed in the repository README): `processNaturalLanguage`;
* `ValidationPanel.tsx` (second component of `AIHelper.tsx`): `commonSchemas`,
  `generateSchema`, `validateData`;
* `NaturalLanguageSearch.tsx`: `processQuery`, `searchData`.

JavaScript dynamic values are modelled by the `Value` type; rows are ordered
key/value association lists (mirroring JS object key insertion order);
JavaScript exceptions are modelled by `Except Unit`; the host `RegExp` engine
for user-supplied patterns is an explicit parameter (`RegexSem`), except for
the pattern `undefined`, whose behaviour (`new RegExp(undefined)` is the empty
pattern) is fixed by the language and embedded concretely.
-/

/-- Characters matched by the JavaScript regex class `\s` (ASCII range). -/
def isJsSpace (c : Char) : Bool :=
  c = ' ' || c = '\t' || c = '\n' || c = '\r' || c.val = 11 || c.val = 12

/-- Characters matched by the JavaScript regex class `\w`. -/
def isWordChar (c : Char) : Bool :=
  c.isAlpha || c.isDigit || c = '_'

/-- JavaScript `String.prototype.toLowerCase` (ASCII range). -/
def jsToLower (s : String) : String :=
  ⟨s.data.map Char.toLower⟩

/-- JavaScript `String.prototype.toUpperCase` (ASCII range). -/
def jsToUpper (s : String) : String :=
  ⟨s.data.map Char.toUpper⟩

/-- Does the character list `pat` occur as a contiguous sublist of `s`?
Mirrors JavaScript `String.prototype.includes`. -/
def listContainsSub (s pat : List Char) : Bool :=
  match s with
  | [] => pat.isEmpty
  | _ :: t => pat.isPrefixOf s || listContainsSub t pat

/-- JavaScript `s.includes(pat)`. -/
def strContainsSub (s pat : String) : Bool :=
  listContainsSub s.data pat.data

/-- JavaScript `s.startsWith(pat)`. -/
def strStartsWith (s pat : String) : Bool :=
  pat.data.isPrefixOf s.data

/-- JavaScript `s.endsWith(pat)`. -/
def strEndsWith (s pat : String) : Bool :=
  pat.data.reverse.isPrefixOf s.data.reverse

/-- Split a character list at every occurrence of the separator, keeping empty
segments, as JavaScript `split` with a single-character separator does. -/
def splitCharAux (sep : Char) : List Char → List Char → List (List Char)
  | [], acc => [acc.reverse]
  | c :: t, acc =>
    if c = sep then acc.reverse :: splitCharAux sep t [] else splitCharAux sep t (c :: acc)

/-- JavaScript `s.split(sep)` for a one-character separator. -/
def splitChar (sep : Char) (s : String) : List String :=
  (splitCharAux sep s.data []).map String.mk

/-- JavaScript `String.prototype.trim` (ASCII whitespace). -/
def jsTrimString (s : String) : String :=
  ⟨((s.data.dropWhile isJsSpace).reverse.dropWhile isJsSpace).reverse⟩

/-- Tokens of a string split at runs of whitespace with empty tokens removed:
JavaScript `s.split(/\s+/).filter(w => w.length > 0)`. -/
def wsTokens (s : String) : List String :=
  ((s.data.splitOnP isJsSpace).filter (· ≠ [])).map String.mk

/-- A JavaScript runtime value as stored in a row object.  `vUndefined` is the
value `undefined` (also the result of reading an absent property). -/
inductive Value where
  | vStr (s : String)
  | vNum (n : Int)
  | vBool (b : Bool)
  | vNull
  | vUndefined
deriving DecidableEq, Repr

/-- JavaScript `String(v)`. -/
def jsToString : Value → String
  | .vStr s => s
  | .vNum n => toString n
  | .vBool true => "true"
  | .vBool false => "false"
  | .vNull => "null"
  | .vUndefined => "undefined"

/-- JavaScript truthiness test, negated: is `v` falsy? -/
def jsFalsy : Value → Bool
  | .vStr s => s = ""
  | .vNum n => n = 0
  | .vBool b => b = false
  | .vNull => true
  | .vUndefined => true

/-- A row: a JS object modelled as a key/value list in key insertion order. -/
abbrev Row := List (String × Value)

/-- A table: the ordered row sequence being edited. -/
abbrev Table := List Row

/-- JavaScript property read `row[field]`: `vUndefined` when the key is absent. -/
def getFieldV (row : Row) (field : String) : Value :=
  match row.find? (fun p => p.1 = field) with
  | some p => p.2
  | none => .vUndefined

/-- JavaScript `{ ...row, [field]: v }`: replace the value of an existing key
in place, or append a fresh key at the end. -/
def setField (row : Row) (field : String) (v : Value) : Row :=
  if row.any (fun p => p.1 = field) then
    row.map (fun p => if p.1 = field then (field, v) else p)
  else
    row ++ [(field, v)]

/-! ## Command parser (`parseCommand` in `NaturalLanguageDataModifier.tsx`) -/

/-- Source `normalize`: `str.replace(/\s|_/g, '').toLowerCase()`. -/
def normalizeStr (str : String) : String :=
  ⟨(str.data.filter (fun c => !(isJsSpace c || c = '_'))).map Char.toLower⟩

/-- The transform names recognised by `/to (uppercase|lowercase|capitalize|trim|reverse|length|wordcount)/`,
in alternation order. -/
def transformWords : List String :=
  ["uppercase", "lowercase", "capitalize", "trim", "reverse", "length", "wordcount"]

/-- Leftmost match of `/to (uppercase|...|wordcount)/`: scan positions left to
right, trying the alternatives in order at each position. -/
def findTransformAux : List Char → Option String
  | [] => none
  | s@(_ :: t) =>
    match transformWords.find? (fun w => ("to " ++ w).data.isPrefixOf s) with
    | some w => some w
    | none => findTransformAux t

/-- `command.match(/to (uppercase|lowercase|capitalize|trim|reverse|length|wordcount)/)`,
returning the captured transform name. -/
def findTransform (s : String) : Option String :=
  findTransformAux s.data

/-- Last occurrence of `to ` followed by at least one word character, with the
greedy maximal word run captured (the effect of the greedy `.*` in
`/transform.*to (\w+)/`). -/
def lastToWordAux : List Char → Option String → Option String
  | [], acc => acc
  | s@(_ :: t), acc =>
    let acc' :=
      if "to ".data.isPrefixOf s then
        let w := (s.drop 3).takeWhile isWordChar
        if w ≠ [] then some (String.mk w) else acc
      else acc
    lastToWordAux t acc'

/-- `command.match(/transform.*to (\w+)/)`: the dot does not cross a newline,
so the `to <word>` part is searched on the rest of the line that holds the
first viable `transform`. -/
def tMatchAux : List Char → Option String
  | [] => none
  | s@(_ :: t) =>
    if "transform".data.isPrefixOf s then
      match lastToWordAux ((s.drop 9).takeWhile (fun c => c ≠ '\n')) none with
      | some w => some w
      | none => tMatchAux t
    else tMatchAux t

/-- Captured group of `/transform.*to (\w+)/` on the whole string. -/
def tMatchCapture (s : String) : Option String :=
  tMatchAux s.data

/-- The operator alternation of the `where` regex, in alternation order. -/
def whereOps : List String :=
  ["=", ">", "<", "contains", "starts with", "ends with"]

/-- The list `[n, n-1, ..., 0]` (greedy-to-lazy backtracking order for `\s*`). -/
def descFrom (n : Nat) : List Nat :=
  (List.range (n + 1)).reverse

/-- The list `[n, n-1, ..., 1]` (backtracking order for a `+`-quantified atom). -/
def descFrom1 (n : Nat) : List Nat :=
  ((List.range n).map (· + 1)).reverse

/-- Continuations for an optional quote `["']?`: the greedy engine first tries
consuming a quote character when one is present. -/
def quoteCandidates (l : List Char) : List (List Char) :=
  match l with
  | c :: t => if c = '"' || c = '\'' then [t, l] else [l]
  | [] => [l]

/-- Match `["']?([^"']+)["']?` at the head of `l` and return the capture. -/
def valueAt (l : List Char) : Option (List Char) :=
  (quoteCandidates l).findSome? (fun r =>
    let v := r.takeWhile (fun c => c ≠ '"' && c ≠ '\'')
    if v ≠ [] then some v else none)

/-- Backtracking continuations for `\s*` at the head of `l`, greedy first. -/
def wsStarDrops (l : List Char) : List (List Char) :=
  (descFrom (l.takeWhile isJsSpace).length).map (l.drop ·)

/-- Match `/where\s+(\w+)\s*(=|>|<|contains|starts with|ends with)\s*["']?([^"']+)["']?/`
anchored at the head of `s`, with the regex backtracking order (inner atoms
vary fastest), returning the three captures. -/
def matchWhereAt (s : List Char) : Option (String × String × String) :=
  if "where".data.isPrefixOf s then
    let rest := s.drop 5
    let nws := (rest.takeWhile isJsSpace).length
    if nws = 0 then none
    else
      let r1 := rest.drop nws
      let wrun := r1.takeWhile isWordChar
      (descFrom1 wrun.length).findSome? (fun k =>
        let field := wrun.take k
        (wsStarDrops (r1.drop k)).findSome? (fun r3 =>
          whereOps.findSome? (fun op =>
            if op.data.isPrefixOf r3 then
              (wsStarDrops (r3.drop op.length)).findSome? (fun r5 =>
                (valueAt r5).map (fun v => (String.mk field, op, String.mk v)))
            else none)))
  else none

/-- Leftmost match of the `where` regex over the whole string. -/
def whereMatchAux : List Char → Option (String × String × String)
  | [] => none
  | s@(_ :: t) =>
    match matchWhereAt s with
    | some r => some r
    | none => whereMatchAux t

/-- `command.match(/where\s+(\w+)\s*(=|>|<|contains|starts with|ends with)\s*["']?([^"']+)["']?/i)`. -/
def whereMatch (s : String) : Option (String × String × String) :=
  whereMatchAux s.data

/-- Match `/kw\s+["']?([^"']+)["']?/` anchored at the head of `s` (the `\s+`
backtracks from greedy down to one character, since the value class includes
spaces). -/
def matchKwAt (kw : List Char) (s : List Char) : Option (List Char) :=
  if kw.isPrefixOf s then
    let rest := s.drop kw.length
    let nws := (rest.takeWhile isJsSpace).length
    if nws = 0 then none
    else (descFrom1 nws).findSome? (fun m => valueAt (rest.drop m))
  else none

/-- Leftmost match of `/kw\s+["']?([^"']+)["']?/` over the whole string. -/
def kwValueAux (kw : List Char) : List Char → Option (List Char)
  | [] => none
  | s@(_ :: t) =>
    match matchKwAt kw s with
    | some v => some v
    | none => kwValueAux kw t

/-- Captured value of `/kw\s+["']?([^"']+)["']?/i` (used for `to`, `with`, `set`). -/
def kwValueMatch (kw : String) (s : String) : Option String :=
  (kwValueAux kw.data s.data).map String.mk

/-- `parseInt` on a digit run. -/
def digitsToNat (l : List Char) : Nat :=
  l.foldl (fun acc c => 10 * acc + (c.toNat - 48)) 0

/-- All matches of the global regex `/row\s+(\d+)/gi`, each converted with
`parseInt`; matching resumes after each match (non-overlapping).  The fuel
argument only bounds the recursion depth: every recursive call shortens the
character list, so any fuel above the list length gives the untruncated
scan. -/
def rowNumbersAux : Nat → List Char → List Nat
  | 0, _ => []
  | _ + 1, [] => []
  | fuel + 1, c :: t =>
    if "row".data.isPrefixOf (c :: t) then
      let rest := (c :: t).drop 3
      let nws := (rest.takeWhile isJsSpace).length
      let digits := (rest.drop nws).takeWhile Char.isDigit
      if nws ≠ 0 && digits ≠ [] then
        digitsToNat digits :: rowNumbersAux fuel ((rest.drop nws).drop digits.length)
      else rowNumbersAux fuel t
    else rowNumbersAux fuel t

/-- Row numbers extracted from a command. -/
def rowNumbers (s : String) : List Nat :=
  rowNumbersAux (s.data.length + 1) s.data

/-- The operations of a `DataModification`. -/
inductive Op where
  | update | delete | add | replace | transform
deriving DecidableEq, Repr

/-- The parse-relevant fields of a `DataModification` record (its `id`,
original command text, `status` and `timestamp` are UI bookkeeping). -/
structure DataModification where
  operation : Op
  field : String
  condition : String
  newValue : String
  affectedRows : List Nat
deriving DecidableEq, Repr

/-- Source `parseCommand`: operation detection in priority order, fuzzy field
resolution against the field set, `where`-clause extraction, literal-value
extraction for update/replace, and row-number extraction.  Returns `none`
when no field matches (the caller then surfaces the field-list diagnostic). -/
def parseCommand (availableFields : List String) (command : String) : Option DataModification :=
  let lowerCommand := jsToLower command
  let p1 : Op × String :=
    match findTransform lowerCommand with
    | some w => (.transform, w)
    | none =>
      if strContainsSub lowerCommand "delete" || strContainsSub lowerCommand "remove" then
        (.delete, "")
      else if strContainsSub lowerCommand "add" || strContainsSub lowerCommand "insert" then
        (.add, "")
      else if strContainsSub lowerCommand "replace" || strContainsSub lowerCommand "swap" then
        (.replace, "")
      else if strContainsSub lowerCommand "transform" || strContainsSub lowerCommand "convert" then
        (.transform, (tMatchCapture lowerCommand).getD "")
      else (.update, "")
  let operation := p1.1
  let newValue0 := p1.2
  let normalizedCommand := normalizeStr lowerCommand
  let matchedField? := availableFields.find? (fun f => strContainsSub normalizedCommand (normalizeStr f))
  let condition :=
    match whereMatch lowerCommand with
    | some (f, op, v) => f ++ " " ++ op ++ " " ++ v
    | none => ""
  let newValue :=
    if newValue0 = "" && (operation = Op.update || operation = Op.replace) then
      (((kwValueMatch "to" lowerCommand).orElse fun _ =>
        (kwValueMatch "with" lowerCommand).orElse fun _ =>
          kwValueMatch "set" lowerCommand).getD "")
    else newValue0
  let affectedRows := rowNumbers lowerCommand
  match matchedField? with
  | none => none
  | some f => some ⟨operation, f, condition, newValue, affectedRows⟩

/-! ## Condition evaluator and transform library -/

/-- JavaScript `parseFloat` on decimal forms: leading whitespace, optional
sign, digits with an optional fraction, trailing junk ignored; `none` is
`NaN`.  (Exponent and `Infinity` forms do not occur in this data.) -/
def jsParseFloat (s : String) : Option ℚ :=
  let l := s.data.dropWhile isJsSpace
  let p : ℚ × List Char :=
    match l with
    | '-' :: t => (-1, t)
    | '+' :: t => (1, t)
    | _ => (1, l)
  let intDigits := p.2.takeWhile Char.isDigit
  let l2 := p.2.drop intDigits.length
  let fracDigits :=
    match l2 with
    | '.' :: t => t.takeWhile Char.isDigit
    | _ => []
  if intDigits = [] && fracDigits = [] then none
  else some (p.1 * ((digitsToNat intDigits : ℚ) + (digitsToNat fracDigits : ℚ) / (10 : ℚ) ^ fracDigits.length))

/-- `parseFloat(a) > parseFloat(b)`: any comparison against `NaN` is false. -/
def optGt : Option ℚ → Option ℚ → Bool
  | some x, some y => decide (y < x)
  | _, _ => false

/-- `parseFloat(a) < parseFloat(b)`: any comparison against `NaN` is false. -/
def optLt : Option ℚ → Option ℚ → Bool
  | some x, some y => decide (x < y)
  | _, _ => false

/-- The string the evaluator compares: `String((row[field]) || '').toLowerCase()`.
A falsy stored value (empty string, `0`, `false`, `null`, `undefined`/absent)
is coerced to the empty string before stringification. -/
def condFieldValue (row : Row) (field : String) : String :=
  jsToLower (if jsFalsy (getFieldV row field) then "" else jsToString (getFieldV row field))

/-- Source `evaluateCondition`.  The condition text is split at single spaces;
`value.toLowerCase()` throws (modelled as `.error ()`) when the condition has
fewer than three space-separated parts, since `parts[2]` is then `undefined`. -/
def evaluateCondition (row : Row) (condition : String) : Except Unit Bool :=
  if condition = "" then .ok true
  else
    let parts := splitChar ' ' condition
    let field := parts.headD ""
    let operator := parts.get? 1
    let value := parts.get? 2
    let fieldValue := condFieldValue row field
    match value with
    | none => .error ()
    | some v =>
      let compareValue := jsToLower v
      .ok (match operator with
        | some "=" => fieldValue == compareValue
        | some ">" => optGt (jsParseFloat fieldValue) (jsParseFloat compareValue)
        | some "<" => optLt (jsParseFloat fieldValue) (jsParseFloat compareValue)
        | some "contains" => strContainsSub fieldValue compareValue
        | some "starts" => strStartsWith fieldValue compareValue
        | some "ends" => strEndsWith fieldValue compareValue
        | _ => false)

/-- `charAt(0).toUpperCase() + slice(1).toLowerCase()`. -/
def capitalizeJs (s : String) : String :=
  match s.data with
  | [] => ""
  | c :: t => ⟨Char.toUpper c :: t.map Char.toLower⟩

/-- `split(/\s+/).filter(word => word.length > 0).length`. -/
def wordCountJs (s : String) : Nat :=
  (wsTokens s).length

/-- Source `transformValue`: pure value-to-value transform library; an unknown
transform name returns the value unchanged. -/
def transformValue (value : Value) (transformType : String) : Value :=
  let stringValue := jsToString value
  match jsToLower transformType with
  | "uppercase" => .vStr (jsToUpper stringValue)
  | "lowercase" => .vStr (jsToLower stringValue)
  | "capitalize" => .vStr (capitalizeJs stringValue)
  | "trim" => .vStr (jsTrimString stringValue)
  | "reverse" => .vStr ⟨stringValue.data.reverse⟩
  | "length" => .vNum stringValue.data.length
  | "wordcount" => .vNum (wordCountJs stringValue)
  | _ => value

/-! ## Modification applier (`applyModification` in `NaturalLanguageDataModifier.tsx`) -/

/-- Semantics of the host `RegExp` engine for the patterns passed to
`new RegExp(pattern, 'gi')` in the replace branch: `compile p` is `none` when
the constructor throws a `SyntaxError` on `p`, and otherwise the function
mapping a replacement string and a subject to the result of a global
case-insensitive `String.prototype.replace`. -/
structure RegexSem where
  compile : String → Option (String → String → String)

/-- `GetSubstitution` for a string replacement template applied to one match
of the empty pattern (matched text empty, no capture groups) at a position
whose preceding text is `before` and whose following text is `after`:
`$$` inserts `$`; `$&` inserts the matched text (empty here); a dollar
followed by the character with code 96 (a backquote) inserts `before`;
`$'` inserts `after`; every other `$`-sequence is literal (`$n` refers to a
capture group the empty pattern does not have, and there are no named
groups, so both pass through verbatim). -/
def getSubstitutionNoCapture (before after : List Char) : List Char → List Char
  | [] => []
  | c :: rest =>
    if c = '$' then
      match rest with
      | [] => ['$']
      | d :: t =>
        if d = '$' then '$' :: getSubstitutionNoCapture before after t
        else if d = '&' then getSubstitutionNoCapture before after t
        else if d = Char.ofNat 96 then before ++ getSubstitutionNoCapture before after t
        else if d = '\'' then after ++ getSubstitutionNoCapture before after t
        else '$' :: getSubstitutionNoCapture before after (d :: t)
    else c :: getSubstitutionNoCapture before after rest

/-- The interleaving loop of a global empty-pattern replace: a match at every
position `p` of the subject (`before` is the text so far, the rest of the
subject follows), each replaced by the substitution of the template at that
position, with the subject's characters in between. -/
def emptyPatternReplaceAux (repl : List Char) : List Char → List Char → List Char
  | before, [] => getSubstitutionNoCapture before [] repl
  | before, c :: t =>
    getSubstitutionNoCapture before (c :: t) repl ++ c :: emptyPatternReplaceAux repl (before ++ [c]) t

/-- `String.prototype.replace` with the compiled empty pattern
`new RegExp(undefined, 'gi')` (the pattern argument was `undefined`): the
empty pattern matches at every position, so the `GetSubstitution` expansion
of the replacement template at that position is inserted before every
character and at the end. -/
def emptyPatternReplace (repl : String) (s : String) : String :=
  ⟨emptyPatternReplaceAux repl.data [] s.data⟩

/-- `String(oldValue).replace(new RegExp(pat, 'gi'), repl)` where `pat` is
`modification.condition.split(' ')[2]` and may be `undefined` (`none`). -/
def jsRegexReplaceGI (sem : RegexSem) (pat : Option String) (repl : String) (s : String) :
    Except Unit String :=
  match pat with
  | none => .ok (emptyPatternReplace repl s)
  | some p =>
    match sem.compile p with
    | none => .error ()
    | some f => .ok (f repl s)

/-- Row selection shared by the update/delete/replace/transform branches:
`modification.affectedRows.includes(index + 1) || (modification.condition &&
evaluateCondition(row, modification.condition))`. -/
def rowSelected (m : DataModification) (index : Nat) (row : Row) : Except Unit Bool :=
  if m.affectedRows.contains (index + 1) then .ok true
  else if m.condition = "" then .ok false
  else evaluateCondition row m.condition

/-- The `update` branch of the switch: `newData.map(...)` with the field set
to the literal value on selected rows. -/
def updateGo (m : DataModification) (i : Nat) : List Row → Except Unit (List Row)
  | [] => .ok []
  | row :: t => do
    let sel ← rowSelected m i row
    let rest ← updateGo m (i + 1) t
    pure ((if sel then setField row m.field (.vStr m.newValue) else row) :: rest)

/-- The `delete` branch: `newData.filter(...)` keeping unselected rows. -/
def deleteGo (m : DataModification) (i : Nat) : List Row → Except Unit (List Row)
  | [] => .ok []
  | row :: t => do
    let sel ← rowSelected m i row
    let rest ← deleteGo m (i + 1) t
    pure (if sel then rest else row :: rest)

/-- The `replace` branch: on selected rows the stringified current field value
goes through a global case-insensitive regex replace whose pattern is the
third space-separated part of the condition text (possibly `undefined`). -/
def replaceGo (sem : RegexSem) (m : DataModification) (i : Nat) :
    List Row → Except Unit (List Row)
  | [] => .ok []
  | row :: t => do
    let sel ← rowSelected m i row
    let row' ←
      if sel then do
        let oldValue := getFieldV row m.field
        let newValue ← jsRegexReplaceGI sem ((splitChar ' ' m.condition).get? 2) m.newValue
          (jsToString oldValue)
        pure (setField row m.field (.vStr newValue))
      else pure row
    let rest ← replaceGo sem m (i + 1) t
    pure (row' :: rest)

/-- The `transform` branch: apply the transform library function named by the
literal to the current field value of selected rows. -/
def transformGo (m : DataModification) (i : Nat) : List Row → Except Unit (List Row)
  | [] => .ok []
  | row :: t => do
    let sel ← rowSelected m i row
    let rest ← transformGo m (i + 1) t
    pure ((if sel then setField row m.field (transformValue (getFieldV row m.field) m.newValue)
           else row) :: rest)

/-- The body of the `try` block of `applyModification`: the switch over the
operation.  An error is a JavaScript exception escaping the switch. -/
def applyCore (sem : RegexSem) (availableFields : List String) (data : Table)
    (m : DataModification) : Except Unit Table :=
  match m.operation with
  | .update => updateGo m 0 data
  | .delete => deleteGo m 0 data
  | .add =>
    let newRow : Row :=
      availableFields.map (fun f => (f, Value.vStr (if f = m.field then m.newValue else "")))
    .ok (data ++ [newRow])
  | .replace => replaceGo sem m 0 data
  | .transform => transformGo m 0 data

/-- Source `applyModification`: the switch inside `try`; on an exception the
`catch` marks the record `failed` (second component `true`) and the function
falls through to `return newData`, the untouched copy of the input. -/
def applyModification (sem : RegexSem) (availableFields : List String) (data : Table)
    (m : DataModification) : Table × Bool :=
  match applyCore sem availableFields data m with
  | .ok t => (t, false)
  | .error _ => (data, true)

/-- Parse a phrase against the live field set and apply the resulting record,
as `processCommand` followed by `applyModificationToData` does.  `none` is a
parse failure (no field matched). -/
def parseAndApply (sem : RegexSem) (availableFields : List String) (data : Table)
    (command : String) : Option (Table × Bool) :=
  (parseCommand availableFields command).map (applyModification sem availableFields data)

/-! ### Store-passing form of the applier, for the aliasing discipline

JavaScript rows are heap objects shared between the input array and the
output of `applyModification`.  To state that the applier never mutates an
input row object and that every modified output row is a freshly allocated
object, the same source code is embedded a second time in store-passing
style: a `Store` is the heap (a list of row objects indexed by allocation
address) and a table is a list of addresses into it.  `{ ...row, ... }`
becomes an allocation; rows returned unchanged keep their address. -/

/-- The heap of row objects. -/
abbrev Store := List Row

/-- Read the row object at an address (JS dereference). -/
def readRow (st : Store) (a : Nat) : Row :=
  st.getD a []

/-- Allocate a fresh row object, returning the new heap and its address. -/
def alloc (st : Store) (r : Row) : Store × Nat :=
  (st ++ [r], st.length)

/-- Store-passing `update` branch. -/
def updateGoSt (m : DataModification) : Store → Nat → List Nat → Except Unit (Store × List Nat)
  | st, _, [] => .ok (st, [])
  | st, i, a :: t => do
    let row := readRow st a
    let sel ← rowSelected m i row
    if sel then
      let p := alloc st (setField row m.field (.vStr m.newValue))
      let q ← updateGoSt m p.1 (i + 1) t
      pure (q.1, p.2 :: q.2)
    else
      let q ← updateGoSt m st (i + 1) t
      pure (q.1, a :: q.2)

/-- Store-passing `delete` branch (no allocation, addresses filtered). -/
def deleteGoSt (m : DataModification) : Store → Nat → List Nat → Except Unit (Store × List Nat)
  | st, _, [] => .ok (st, [])
  | st, i, a :: t => do
    let row := readRow st a
    let sel ← rowSelected m i row
    let q ← deleteGoSt m st (i + 1) t
    pure (q.1, if sel then q.2 else a :: q.2)

/-- Store-passing `replace` branch. -/
def replaceGoSt (sem : RegexSem) (m : DataModification) :
    Store → Nat → List Nat → Except Unit (Store × List Nat)
  | st, _, [] => .ok (st, [])
  | st, i, a :: t => do
    let row := readRow st a
    let sel ← rowSelected m i row
    if sel then
      let oldValue := getFieldV row m.field
      let newValue ← jsRegexReplaceGI sem ((splitChar ' ' m.condition).get? 2) m.newValue
        (jsToString oldValue)
      let p := alloc st (setField row m.field (.vStr newValue))
      let q ← replaceGoSt sem m p.1 (i + 1) t
      pure (q.1, p.2 :: q.2)
    else
      let q ← replaceGoSt sem m st (i + 1) t
      pure (q.1, a :: q.2)

/-- Store-passing `transform` branch. -/
def transformGoSt (m : DataModification) : Store → Nat → List Nat → Except Unit (Store × List Nat)
  | st, _, [] => .ok (st, [])
  | st, i, a :: t => do
    let row := readRow st a
    let sel ← rowSelected m i row
    if sel then
      let p := alloc st (setField row m.field (transformValue (getFieldV row m.field) m.newValue))
      let q ← transformGoSt m p.1 (i + 1) t
      pure (q.1, p.2 :: q.2)
    else
      let q ← transformGoSt m st (i + 1) t
      pure (q.1, a :: q.2)

/-- Store-passing form of the switch inside `try`. -/
def applyCoreSt (sem : RegexSem) (availableFields : List String) (st : Store)
    (refs : List Nat) (m : DataModification) : Except Unit (Store × List Nat)  :=
  match m.operation with
  | .update => updateGoSt m st 0 refs
  | .delete => deleteGoSt m st 0 refs
  | .add =>
    let newRow : Row :=
      availableFields.map (fun f => (f, Value.vStr (if f = m.field then m.newValue else "")))
    let p := alloc st newRow
    .ok (p.1, refs ++ [p.2])
  | .replace => replaceGoSt sem m st 0 refs
  | .transform => transformGoSt m st 0 refs

/-- Store-passing `applyModification`: on an exception the catch block returns
the original address list over the original heap (allocations made before the
throw are unreachable garbage and are dropped). -/
def applyModificationSt (sem : RegexSem) (availableFields : List String) (st : Store)
    (refs : List Nat) (m : DataModification) : Store × List Nat × Bool :=
  match applyCoreSt sem availableFields st refs m with
  | .ok p => (p.1, p.2, false)
  | .error _ => (st, refs, true)

/-! ## Search scorer (`processQuery`/`searchData` in `NaturalLanguageSearch.tsx`) -/

/-- One search hit. -/
structure SearchResult where
  rowIndex : Nat
  row : Row
  score : Nat
  matchedFields : List String
  highlight : String
deriving DecidableEq, Repr

/-- `word.replace(/[^\w]/g, '')`. -/
def cleanWord (w : String) : String :=
  ⟨w.data.filter isWordChar⟩

/-- The keyword list of `processQuery`: whitespace-delimited words of the raw
query, stripped of non-word characters, kept when longer than two characters
(case is NOT folded here — the source never lowercases the keywords). -/
def queryKeywords (query : String) : List String :=
  ((wsTokens query).map cleanWord).filter (fun c => 2 < c.length)

/-- JS object property write `filters[k] = v`: overwrite in place or append. -/
def setFilter (filters : List (String × String)) (k v : String) : List (String × String) :=
  if filters.any (fun p => p.1 = k) then
    filters.map (fun p => if p.1 = k then (k, v) else p)
  else filters ++ [(k, v)]

/-- All matches of the global regex `/(\w+):\s*([^\s]+)/g`: a word run
immediately followed by a colon, optional whitespace, and a nonempty
non-space value; scanning resumes after each match.  The fuel argument only
bounds the recursion depth: every recursive call shortens the character
list, so any fuel above the list length gives the untruncated scan. -/
def filtersAux : Nat → List Char → List (String × String) → List (String × String)
  | 0, _, acc => acc
  | _ + 1, [], acc => acc
  | fuel + 1, c :: t, acc =>
    if isWordChar c then
      let wrun := (c :: t).takeWhile isWordChar
      let rest := (c :: t).drop wrun.length
      if rest.head? = some ':' then
        let r2 := rest.tail
        let sp := r2.takeWhile isJsSpace
        let v := (r2.drop sp.length).takeWhile (fun ch => !isJsSpace ch)
        if v ≠ [] then
          filtersAux fuel ((r2.drop sp.length).drop v.length)
            (setFilter acc (String.mk wrun) (String.mk v))
        else filtersAux fuel t acc
      else filtersAux fuel t acc
    else filtersAux fuel t acc

/-- The `field:value` filters of `processQuery`. -/
def queryFilters (query : String) : List (String × String) :=
  filtersAux (query.data.length + 1) query.data []

/-- `matchedFields.push(field)` guarded by `!matchedFields.includes(field)`. -/
def pushUnique (l : List String) (f : String) : List String :=
  if l.contains f then l else l ++ [f]

/-- Score/matched-fields/highlight accumulation of `searchData` for one field
of a row: the filter clause (+10, unconditional push), each matching keyword
(+5, deduplicated push) and the exact-query match (+20, deduplicated push). -/
def fieldStep (filters : List (String × String)) (keywords : List String) (query : String)
    (acc : Nat × List String × String) (field : String) (value : Value) :
    Nat × List String × String :=
  let fieldValue := jsToLower (jsToString value)
  let frag := field ++ ": " ++ jsToString value ++ " "
  let acc1 :=
    match filters.find? (fun p => p.1 = field) with
    | some p =>
      if strContainsSub fieldValue (jsToLower p.2) then
        (acc.1 + 10, acc.2.1 ++ [field], acc.2.2 ++ frag)
      else acc
    | none => acc
  let acc2 := keywords.foldl (fun a kw =>
    if strContainsSub fieldValue kw then (a.1 + 5, pushUnique a.2.1 field, a.2.2 ++ frag)
    else a) acc1
  if fieldValue = jsToLower query then (acc2.1 + 20, pushUnique acc2.2.1 field, acc2.2.2 ++ frag)
  else acc2

/-- Total score, matched fields and highlight text of one row. -/
def rowScoreData (query : String) (row : Row) : Nat × List String × String :=
  row.foldl (fun acc p => fieldStep (queryFilters query) (queryKeywords query) query acc p.1 p.2)
    (0, [], "")

/-- The `SearchResult` the loop body would push for row `index` (1-based
`rowIndex`, trimmed highlight). -/
def mkResult (query : String) (index : Nat) (row : Row) : SearchResult :=
  ⟨index + 1, row, (rowScoreData query row).1, (rowScoreData query row).2.1,
    jsTrimString (rowScoreData query row).2.2⟩

/-- The `data.forEach` loop: results for rows with positive score, in row
order. -/
def scoredGo (query : String) : Nat → List Row → List SearchResult
  | _, [] => []
  | i, row :: t =>
    if 0 < (mkResult query i row).score then mkResult query i row :: scoredGo query (i + 1) t
    else scoredGo query (i + 1) t

/-- The unsorted hit list of `searchData`. -/
def scoredResults (data : Table) (query : String) : List SearchResult :=
  scoredGo query 0 data

/-- The order realised by `searchResults.sort((a, b) => b.score - a.score)`:
JavaScript sort is stable, and the unsorted list has strictly increasing
`rowIndex`, so the sorted output is the unique permutation ordered by
descending score with ascending `rowIndex` breaking ties. -/
def searchRel (a b : SearchResult) : Prop :=
  b.score < a.score ∨ (a.score = b.score ∧ a.rowIndex ≤ b.rowIndex)

instance : DecidableRel searchRel := fun a b => by
  unfold searchRel; exact inferInstance

instance : IsTotal SearchResult searchRel := by
  constructor
  intro a b
  unfold searchRel
  omega

instance : IsTrans SearchResult searchRel := by
  constructor
  intro a b c hab hbc
  unfold searchRel at *
  omega

/-- Source `searchData`: empty for a blank query or empty table, otherwise the
positive-score rows sorted by descending score (stable). -/
def searchData (data : Table) (query : String) : List SearchResult :=
  if jsTrimString query = "" || data.isEmpty then []
  else List.insertionSort searchRel (scoredResults data query)

/-! ## Validation engine (`generateSchema`/`validateData` in `ValidationPanel.tsx`) -/

/-- Inferred per-field rule, keyed by the `commonSchemas` entry chosen. -/
inductive FieldKind where
  | email | phone | date | number | required
deriving DecidableEq, Repr

/-- Is `Number(s)` a number (not `NaN`) for a string, on decimal forms: the
trimmed empty string is `0`; otherwise an optional sign and digits with at
most one point.  (Hex and exponent forms do not occur in this data.) -/
def numericStringOk (s : String) : Bool :=
  let t := (jsTrimString s).data
  if t.isEmpty then true
  else
    let l1 := match t with
      | '-' :: r => r
      | '+' :: r => r
      | _ => t
    let intDigits := l1.takeWhile Char.isDigit
    match l1.drop intDigits.length with
    | [] => !intDigits.isEmpty
    | '.' :: r =>
      (!intDigits.isEmpty || !(r.takeWhile Char.isDigit).isEmpty) &&
        (r.dropWhile Char.isDigit).isEmpty
    | _ => false

/-- `!isNaN(Number(value))`. -/
def jsNumberNotNaN : Value → Bool
  | .vNum _ => true
  | .vBool _ => true
  | .vNull => true
  | .vUndefined => false
  | .vStr s => numericStringOk s

/-- Source `generateSchema`: name/content heuristics in priority order. -/
def generateSchema (sampleRow : Row) : List (String × FieldKind) :=
  sampleRow.map (fun p =>
    let lowerKey := jsToLower p.1
    (p.1,
      if strContainsSub lowerKey "email" then FieldKind.email
      else if strContainsSub lowerKey "phone" || strContainsSub lowerKey "mobile" then
        FieldKind.phone
      else if strContainsSub lowerKey "date" then FieldKind.date
      else if (match p.2 with | .vNum _ => true | _ => false) || jsNumberNotNaN p.2 then
        FieldKind.number
      else FieldKind.required))

/-- Characters of the local part of the zod email pattern
`[A-Z0-9_'+\-\.]` (case-insensitive). -/
def isEmailLocalChar (c : Char) : Bool :=
  c.isAlpha || c.isDigit || c = '_' || c = '\'' || c = '+' || c = '-' || c = '.'

/-- Characters allowed as the last local-part character, `[A-Z0-9_+-]`. -/
def isEmailLocalEnd (c : Char) : Bool :=
  c.isAlpha || c.isDigit || c = '_' || c = '+' || c = '-'

/-- Domain label characters after the first, `[A-Z0-9\-]`. -/
def isDomainChar (c : Char) : Bool :=
  c.isAlpha || c.isDigit || c = '-'

/-- One domain label `[A-Z0-9][A-Z0-9\-]*`. -/
def domainLabelOk (l : List Char) : Bool :=
  match l with
  | [] => false
  | c :: t => (c.isAlpha || c.isDigit) && t.all isDomainChar

/-- The zod `z.string().email()` pattern
`/^(?!\.)(?!.*\.\.)([A-Z0-9_'+\-\.]*)[A-Z0-9_+-]@([A-Z0-9][A-Z0-9\-]*\.)+[A-Z]{2,}$/i`:
no leading dot, no doubled dot anywhere, a nonempty local part over the local
character class ending in a restricted character, one `@`, then one or more
labels and an alphabetic top-level domain of length at least two. -/
def zodEmail (s : String) : Bool :=
  let noLeadDot := !(s.data.head? == some '.')
  let noDoubleDot := !listContainsSub s.data ['.', '.']
  match splitCharAux '@' s.data [] with
  | [loc, dom] =>
    let localOk :=
      match loc.reverse with
      | [] => false
      | e :: rev => isEmailLocalEnd e && rev.all isEmailLocalChar
    let domOk :=
      match (splitCharAux '.' dom []).reverse with
      | [] => false
      | tld :: labelsRev =>
        decide (2 ≤ tld.length) && tld.all Char.isAlpha &&
          !labelsRev.isEmpty && labelsRev.all domainLabelOk
    noLeadDot && noDoubleDot && localOk && domOk
  | _ => false

/-- The phone pattern `/^[\+]?[1-9][\d]{0,15}$/`. -/
def zodPhone (s : String) : Bool :=
  let l := match s.data with
    | '+' :: t => t
    | t => t
  match l with
  | c :: t => ('1' ≤ c && c ≤ '9') && t.all Char.isDigit && decide (t.length ≤ 15)
  | [] => false

/-- One inferred rule applied to one (possibly undefined) field value.  Every
`commonSchemas` entry is wrapped in `.optional()`, so `undefined` always
passes; a present non-string value fails the string-based rules with a type
issue; `z.number().or(z.string().transform(parseFloat))` accepts any number
or any string (the transform cannot fail).  `dateOk` is the host
`Date.parse` succeeding, kept abstract. -/
def checkField (dateOk : String → Bool) (kind : FieldKind) (v : Value) : Bool :=
  match v with
  | .vUndefined => true
  | _ =>
    match kind with
    | .email => (match v with | .vStr s => zodEmail s | _ => false)
    | .phone => (match v with | .vStr s => zodPhone s | _ => false)
    | .date => (match v with | .vStr s => dateOk s | _ => false)
    | .number => (match v with | .vNum _ => true | .vStr _ => true | _ => false)
    | .required => (match v with | .vStr s => !s.isEmpty | _ => false)

/-- One reported validation failure (field path, offending value, 1-based row
number; the message text is the fixed zod diagnostic). -/
structure ValidationIssue where
  field : String
  value : Value
  rowIndex : Nat
deriving DecidableEq, Repr

/-- The `data.forEach` loop of `validateData`: per row, one issue for every
schema field whose value fails its rule, in schema key order. -/
def validateGo (dateOk : String → Bool) (schema : List (String × FieldKind)) :
    Nat → List Row → List ValidationIssue
  | _, [] => []
  | i, row :: t =>
    schema.filterMap (fun kv =>
      if checkField dateOk kv.2 (getFieldV row kv.1) then none
      else some ⟨kv.1, getFieldV row kv.1, i + 1⟩) ++ validateGo dateOk schema (i + 1) t

/-- Source `validateData`: schema inferred from the first row, every row
validated against it. -/
def validateData (dateOk : String → Bool) (data : Table) : List ValidationIssue :=
  match data with
  | [] => []
  | first :: _ => validateGo dateOk (generateSchema first) 0 data

/-! ## Rule builder (`processNaturalLanguage` in `RuleBuilder.tsx`) -/

/-- The `operatorMap` object literal; `Object.entries` yields the pairs in
this insertion order. -/
def operatorMap : List (String × String) :=
  [("must be", "equals"),
   ("should be", "equals"),
   ("cannot be", "not_equals"),
   ("must contain", "contains"),
   ("cannot contain", "not_contains"),
   ("must start with", "starts_with"),
   ("must end with", "ends_with"),
   ("must be greater than", "greater_than"),
   ("must be less than", "less_than"),
   ("cannot be empty", "is_not_empty"),
   ("must be empty", "is_empty")]

/-- The detection loop: the first entry (in declaration order) whose phrase
occurs in the input wins; default `equals`. -/
def detectOperator (input : String) : String :=
  match operatorMap.find? (fun p => strContainsSub input p.1) with
  | some p => p.2
  | none => "equals"

/-- Leftmost match of `/"([^"]+)"/`: first quote with a nonempty quote-free
run followed by a closing quote. -/
def extractQuotedAux : List Char → Option String
  | [] => none
  | c :: t =>
    if c = '"' then
      let run := t.takeWhile (fun ch => ch ≠ '"')
      if !run.isEmpty && ((t.drop run.length).head? == some '"') then some (String.mk run)
      else extractQuotedAux t
    else extractQuotedAux t

/-- `input.match(/"([^"]+)"/)` captured value, or the empty string. -/
def extractQuoted (input : String) : String :=
  (extractQuotedAux input.data).getD ""

/-- The deterministic part of one extracted `Rule` (its generated `id`,
sequential `name`/`priority` and the constant `action: 'flag'`,
`isActive: true` are bookkeeping). -/
structure RuleDraft where
  field : String
  operator : String
  value : String
  description : String
deriving DecidableEq, Repr

/-- Source `processNaturalLanguage`: lowercase the input, keep every field
whose lowercased name occurs in it, detect one operator, extract one quoted
value, and emit one rule per matched field. -/
def processNaturalLanguage (availableFields : List String) (naturalLanguageInput : String) :
    List RuleDraft :=
  let input := jsToLower naturalLanguageInput
  let fieldMatches := availableFields.filter (fun f => strContainsSub input (jsToLower f))
  let detectedOperator := detectOperator input
  let value := extractQuoted input
  fieldMatches.map (fun f => ⟨f, detectedOperator, value, naturalLanguageInput⟩)

/-! ## Concrete instances used by the example-level theorems -/

/-- A host regex engine that rejects every pattern; the concrete theorems
below never reach user-pattern compilation, so any engine would do. -/
def sem0 : RegexSem := ⟨fun _ => none⟩

/-- A host date parser that accepts nothing; the concrete theorems below
never validate a date-named field, so any parser would do. -/
def dateOk0 : String → Bool := fun _ => false

/-- The field set of the first worked example, in field-set order. -/
def fieldsC1 : List String := ["name", "email"]

/-- The two-row table of the first worked example. -/
def tableC1 : Table :=
  [[("name", .vStr "John Doe"), ("email", .vStr "j@x.com")],
   [("name", .vStr "Jane"), ("email", .vStr "a@x.com")]]

/-- The phrase of the first worked example. -/
def cmdC1 : String := "Update email field to uppercase where name contains John"

/-- What the code actually produces on the first worked example: the transform
lands on `name` (the resolver's first match), `email` is untouched. -/
def tableC1out : Table :=
  [[("name", .vStr "JOHN DOE"), ("email", .vStr "j@x.com")],
   [("name", .vStr "Jane"), ("email", .vStr "a@x.com")]]

/-- The one-row table of the wordcount example. -/
def tableC3 : Table := [[("name", .vStr "John Middle Doe")]]

/-- The phrase of the wordcount example. -/
def cmdC3 : String := "Transform name field to wordcount"

/-- Table whose second row has an empty-string email. -/
def tableC5 : Table := [[("email", .vStr "a@b.com")], [("email", .vStr "")]]

/-! ## Helper lemmas -/

/-- Bind of a succeeding `Except` computation. -/
theorem exbind_ok {α β : Type} {x : Except Unit α} {a : α} (f : α → Except Unit β)
    (h : x = .ok a) : x >>= f = f a := by
  subst h; rfl

/-- Bind of a failing `Except` computation. -/
theorem exbind_error {α β : Type} {x : Except Unit α} (f : α → Except Unit β)
    (h : x = .error ()) : x >>= f = .error () := by
  subst h; rfl

/-- With no condition clause, row selection is exactly the `targetRows`
membership test and cannot throw. -/
theorem rowSelected_nocond (m : DataModification) (i : Nat) (row : Row)
    (h : m.condition = "") :
    rowSelected m i row = .ok (m.affectedRows.contains (i + 1)) := by
  rcases hb : m.affectedRows.contains (i + 1) with _ | _ <;>
    simp [rowSelected, hb, h]
  · intro hmem
    have h2 := List.elem_eq_true_of_mem hmem
    rw [List.contains] at hb
    rw [hb] at h2
    exact Bool.noConfusion h2
  · exact List.mem_of_elem_eq_true hb

/-- Bind of an `Except.ok` value reduces to the continuation. -/
theorem ok_bind {α β : Type} (a : α) (f : α → Except Unit β) :
    (Except.ok a >>= f : Except Unit β) = f a := rfl

/-- Bind of an `Except.error` value propagates the error. -/
theorem error_bind {α β : Type} (f : α → Except Unit β) :
    (Except.error () >>= f : Except Unit β) = .error () := rfl

/-- `update` with no selected rows maps every row to itself. -/
theorem updateGo_noop (m : DataModification) (h1 : m.affectedRows = []) (h2 : m.condition = "") :
    ∀ i l, updateGo m i l = .ok l := by
  intro i l
  induction l generalizing i with
  | nil => rfl
  | cons row t ih =>
    have hsel : rowSelected m i row = .ok false := by
      rw [rowSelected_nocond m i row h2, h1]; rfl
    simp only [updateGo, hsel, ok_bind, ih]
    rfl

/-- `delete` with no selected rows keeps every row. -/
theorem deleteGo_noop (m : DataModification) (h1 : m.affectedRows = []) (h2 : m.condition = "") :
    ∀ i l, deleteGo m i l = .ok l := by
  intro i l
  induction l generalizing i with
  | nil => rfl
  | cons row t ih =>
    have hsel : rowSelected m i row = .ok false := by
      rw [rowSelected_nocond m i row h2, h1]; rfl
    simp only [deleteGo, hsel, ok_bind, ih]
    rfl

/-- `replace` with no selected rows touches no row and compiles no pattern. -/
theorem replaceGo_noop (sem : RegexSem) (m : DataModification) (h1 : m.affectedRows = [])
    (h2 : m.condition = "") : ∀ i l, replaceGo sem m i l = .ok l := by
  intro i l
  induction l generalizing i with
  | nil => rfl
  | cons row t ih =>
    have hsel : rowSelected m i row = .ok false := by
      rw [rowSelected_nocond m i row h2, h1]; rfl
    simp only [replaceGo, hsel, ok_bind, Bool.false_eq_true, if_false, ih]
    rfl

/-- `transform` with no selected rows maps every row to itself. -/
theorem transformGo_noop (m : DataModification) (h1 : m.affectedRows = [])
    (h2 : m.condition = "") : ∀ i l, transformGo m i l = .ok l := by
  intro i l
  induction l generalizing i with
  | nil => rfl
  | cons row t ih =>
    have hsel : rowSelected m i row = .ok false := by
      rw [rowSelected_nocond m i row h2, h1]; rfl
    simp only [transformGo, hsel, ok_bind, Bool.false_eq_true, if_false, ih]
    rfl

/-! ## Claim theorems -/

/-- C2: for every table and every update, delete, replace or transform record
whose `targetRows` set is empty and whose condition is absent, applying it
returns the input table unchanged with no failure recorded — an explicit
no-op, not an error. -/
theorem c2_empty_selection_noop (sem : RegexSem) (fields : List String) (data : Table)
    (m : DataModification)
    (hop : m.operation = Op.update ∨ m.operation = Op.delete ∨ m.operation = Op.replace ∨
      m.operation = Op.transform)
    (h1 : m.affectedRows = []) (h2 : m.condition = "") :
    applyModification sem fields data m = (data, false) := by
  have hcore : applyCore sem fields data m = .ok data := by
    rcases hop with h | h | h | h <;>
      simp only [applyCore, h, updateGo_noop m h1 h2, deleteGo_noop m h1 h2,
        replaceGo_noop sem m h1 h2, transformGo_noop m h1 h2]
  simp [applyModification, hcore]

/-- C2 witness: a concrete update record with no target rows and no condition
leaves a concrete one-row table unchanged. -/
theorem c2_empty_selection_noop_witness :
    (⟨Op.update, "name", "", "x", []⟩ : DataModification).affectedRows = [] ∧
    applyModification sem0 ["name"] [[("name", Value.vStr "ab")]]
      ⟨Op.update, "name", "", "x", []⟩ = ([[("name", Value.vStr "ab")]], false) :=
  ⟨rfl, c2_empty_selection_noop sem0 ["name"] [[("name", Value.vStr "ab")]] _
    (Or.inl rfl) rfl rfl⟩

/-- C1 counterexample: on the documented example phrase and table, the field
resolver matches `name` (it occurs in the `where` clause and precedes `email`
in field-set order), so row 1's email stays `"j@x.com"` — it does not become
`"J@X.COM"` as the claim states. -/
theorem c1_email_unchanged_cex :
    parseAndApply sem0 fieldsC1 tableC1 cmdC1 = some (tableC1out, false) ∧
    getFieldV (tableC1out.getD 0 []) "email" = Value.vStr "j@x.com" ∧
    Value.vStr "j@x.com" ≠ Value.vStr "J@X.COM" := by
  decide

/-- C1 (amended): applying the example phrase uppercases row 1's `name` field
(the first field-set entry occurring in the normalized phrase), leaves row 1's
email `"j@x.com"`, and leaves row 2 unchanged. -/
theorem c1_transform_lands_on_name :
    parseAndApply sem0 fieldsC1 tableC1 cmdC1 = some (tableC1out, false) := by
  decide

/-- C3 counterexample: `Transform name field to wordcount` parses with no
condition and no row numbers, so no row is selected and the name field stays
the string `"John Middle Doe"` rather than becoming the number `3`. -/
theorem c3_wordcount_not_applied_cex :
    parseAndApply sem0 ["name"] tableC3 cmdC3 = some (tableC3, false) ∧
    getFieldV (tableC3.getD 0 []) "name" = Value.vStr "John Middle Doe" ∧
    Value.vStr "John Middle Doe" ≠ Value.vNum 3 := by
  decide

/-- C3 (amended): the wordcount example phrase has no `where` clause and no
row numbers, so applying it returns the table unchanged. -/
theorem c3_no_selection_noop :
    parseAndApply sem0 ["name"] tableC3 cmdC3 = some (tableC3, false) := by
  decide

/-- With a condition-free record, `replace` rewrites every selected row with
the empty pattern (`new RegExp(undefined, 'gi')`), inserting the
substituted replacement template at every character position. -/
theorem replaceGo_nocond (sem : RegexSem) (m : DataModification) (h : m.condition = "") :
    ∀ i l, replaceGo sem m i l = .ok ((List.enumFrom i l).map fun p =>
      if m.affectedRows.contains (p.1 + 1) then
        setField p.2 m.field
          (.vStr (emptyPatternReplace m.newValue (jsToString (getFieldV p.2 m.field))))
      else p.2) := by
  intro i l
  induction l generalizing i with
  | nil => rfl
  | cons row t ih =>
    have hsel := rowSelected_nocond m i row h
    have hpat : (splitChar ' ' m.condition).get? 2 = none := by rw [h]; rfl
    simp only [replaceGo, hsel, ok_bind, hpat, jsRegexReplaceGI, ih, List.enumFrom, List.map]
    cases hb : m.affectedRows.contains (i + 1) <;> simp [hb] <;> rfl

/-- C4 counterexample: a replace record with no condition and target row 1
does change the selected row: with literal `"x"` the field `"ab"` becomes
`"xaxbx"`, not `"ab"`. -/
theorem c4_replace_nocond_changes_cex :
    applyModification sem0 ["name"] [[("name", Value.vStr "ab")]]
      ⟨Op.replace, "name", "", "x", [1]⟩ = ([[("name", Value.vStr "xaxbx")]], false) ∧
    [("name", Value.vStr "xaxbx")] ≠ [("name", Value.vStr "ab")] := by
  decide

/-- C4 (amended): for every replace record with no condition, each selected
row's field becomes its stringified value rewritten by the global
empty-pattern replace: the `GetSubstitution` expansion of the literal —
taken at the match position, with `$$`, `$&`, dollar-backquote and `$'`
substituted and every other `$`-sequence literal — is inserted at every
character position and at the end; unselected rows are unchanged and no
failure is recorded.  In particular a literal without `$` characters is
inserted verbatim at every position, so the field is unchanged only when
the literal expands to the empty string at every position (for example the
empty literal or `$&`). -/
theorem c4_replace_nocond_empty_pattern (sem : RegexSem) (fields : List String) (data : Table)
    (m : DataModification) (hop : m.operation = Op.replace) (h : m.condition = "") :
    applyModification sem fields data m =
      ((List.enumFrom 0 data).map fun p =>
        if m.affectedRows.contains (p.1 + 1) then
          setField p.2 m.field
            (.vStr (emptyPatternReplace m.newValue (jsToString (getFieldV p.2 m.field))))
        else p.2, false) := by
  have hcore := replaceGo_nocond sem m h 0 data
  simp [applyModification, applyCore, hop, hcore]

/-- C4 witness: the amended statement evaluated at a concrete table, record
and engine. -/
theorem c4_replace_nocond_empty_pattern_witness :
    applyModification sem0 ["name"] [[("name", Value.vStr "cd")]]
      ⟨Op.replace, "name", "", "y", [1]⟩ = ([[("name", Value.vStr "ycydy")]], false) :=
  (c4_replace_nocond_empty_pattern sem0 ["name"] [[("name", Value.vStr "cd")]]
    ⟨Op.replace, "name", "", "y", [1]⟩ rfl rfl).trans (by decide)

/-- The `GetSubstitution` behaviour of the empty-pattern replace on the four
`$`-forms, pinned on the subject `"ab"`: `$$` inserts a dollar, `$&` the
empty matched text (the value is unchanged although the template is
nonempty), the dollar-backquote form the text before each position, `$'`
the text after each position, and `$1` stays literal because the empty
pattern has no capture groups. -/
theorem emptyPatternReplace_dollar_forms :
    emptyPatternReplace "$$" "ab" = "$a$b$" ∧
    emptyPatternReplace "$&" "ab" = "ab" ∧
    emptyPatternReplace (String.mk ['$', Char.ofNat 96]) "ab" = "aabab" ∧
    emptyPatternReplace "$'" "ab" = "ababb" ∧
    emptyPatternReplace "$1" "ab" = "$1a$1b$1" := by
  decide

/-- Every issue reported by the validation loop carries the present, defined
value that failed its rule: an `undefined` (absent) value passes every
`.optional()` rule, so it can never appear in an issue. -/
theorem validateGo_value_defined (dateOk : String → Bool) (schema : List (String × FieldKind)) :
    ∀ i l issue, issue ∈ validateGo dateOk schema i l → issue.value ≠ Value.vUndefined := by
  intro i l
  induction l generalizing i with
  | nil => intro issue h; cases h
  | cons row t ih =>
    intro issue h
    rw [validateGo, List.mem_append] at h
    rcases h with h | h
    · rcases List.mem_filterMap.mp h with ⟨kv, _, heq⟩
      by_cases hc : checkField dateOk kv.2 (getFieldV row kv.1) = true
      · rw [if_pos hc] at heq; cases heq
      · rw [if_neg hc] at heq
        cases heq
        intro hv
        simp only [ValidationIssue.mk.injEq] at hv
        exact hc (by rw [hv]; rfl)
    · exact ih (i + 1) issue h

/-- C5 counterexample: inferring a schema from a table whose first row has an
email field and validating a second row whose email is the empty string
produces exactly one issue, and the offending value of that issue is the
empty string — an empty value does fail validation. -/
theorem c5_empty_string_fails_cex :
    validateData dateOk0 tableC5 = [⟨"email", Value.vStr "", 2⟩] ∧
    (⟨"email", Value.vStr "", 2⟩ : ValidationIssue).value = Value.vStr "" := by
  decide

/-- C5 (amended): for every table, schema inferred from its first row and
host date parser, validation never produces an issue for a field whose value
is absent (`undefined`) in a row — every inferred rule is optional — but a
present empty-string value can fail (email, phone, date and plain-text rules
all reject it); only the absent case is exempt. -/
theorem c5_only_present_values_fail (dateOk : String → Bool) (data : Table)
    (issue : ValidationIssue) (h : issue ∈ validateData dateOk data) :
    issue.value ≠ Value.vUndefined := by
  unfold validateData at h
  match data, h with
  | first :: rest, h => exact validateGo_value_defined dateOk (generateSchema first) 0 _ issue h

/-- C5 witness: the amended statement applied to a concrete table and issue. -/
theorem c5_only_present_values_fail_witness :
    (⟨"email", Value.vStr "", 2⟩ : ValidationIssue).value ≠ Value.vUndefined :=
  c5_only_present_values_fail dateOk0 tableC5 _ (by decide)

/-- Substring containment as list-infix. -/
theorem listContainsSub_iff (p : List Char) : ∀ s, listContainsSub s p = true ↔ p <:+: s := by
  intro s
  induction s with
  | nil => simp [listContainsSub, List.infix_nil, List.isEmpty_iff]
  | cons c t ih =>
    simp [listContainsSub, List.infix_cons_iff, List.isPrefixOf_iff_prefix, ih]

/-- A string containing `q` also contains every prefix of `q`. -/
theorem strContainsSub_of_prefix {s p q : String} (hpq : p.data <+: q.data)
    (h : strContainsSub s q = true) : strContainsSub s p = true := by
  rw [strContainsSub, listContainsSub_iff] at h ⊢
  exact hpq.isInfix.trans h

/-- An input containing `must be` (in particular any input containing
`must be greater than`) hits the first `operatorMap` entry. -/
theorem detectOperator_must_be (input : String) (h : strContainsSub input "must be" = true) :
    detectOperator input = "equals" := by
  rw [detectOperator, operatorMap]
  rw [List.find?_cons_of_pos _ (by exact h)]

/-- An input containing `cannot be` but neither `must be` nor `should be`
hits the third `operatorMap` entry. -/
theorem detectOperator_cannot_be (input : String)
    (hc : strContainsSub input "cannot be" = true)
    (h1 : strContainsSub input "must be" = false)
    (h2 : strContainsSub input "should be" = false) :
    detectOperator input = "not_equals" := by
  rw [detectOperator, operatorMap]
  rw [List.find?_cons_of_neg _ (by simp [h1]), List.find?_cons_of_neg _ (by simp [h2]),
    List.find?_cons_of_pos _ (by exact hc)]

/-- C6 counterexample: the phrase `Age must be greater than "18"` with known
field `age` yields one rule whose operator is `equals`, not `greater_than`:
the detection loop breaks on the earlier entry `must be`, which every
occurrence of `must be greater than` contains. -/
theorem c6_greater_than_unreachable_cex :
    processNaturalLanguage ["age"] "Age must be greater than \"18\"" =
      [⟨"age", "equals", "18", "Age must be greater than \"18\""⟩] ∧
    "equals" ≠ "greater_than" := by
  decide

/-- C6 (amended): operator detection takes the first `operatorMap` entry (in
declaration order) whose phrase the lowercased input contains.  Hence every
rule extracted from a phrase containing `must be greater than` has operator
`equals` (the `must be` entry wins), and a phrase containing `cannot be
empty` yields `not_equals` (the `cannot be` entry wins) provided the input
contains neither `must be` nor `should be`. -/
theorem c6_first_entry_operator (fields : List String) (input : String) :
    (strContainsSub (jsToLower input) "must be greater than" = true →
      ∀ r ∈ processNaturalLanguage fields input, r.operator = "equals") ∧
    (strContainsSub (jsToLower input) "cannot be empty" = true →
      strContainsSub (jsToLower input) "must be" = false →
      strContainsSub (jsToLower input) "should be" = false →
      ∀ r ∈ processNaturalLanguage fields input, r.operator = "not_equals") := by
  constructor
  · intro h r hr
    have hmb : strContainsSub (jsToLower input) "must be" = true :=
      strContainsSub_of_prefix (List.isPrefixOf_iff_prefix.mp (by decide)) h
    rcases List.mem_map.mp hr with ⟨f, _, heq⟩
    rw [← heq]
    exact detectOperator_must_be _ hmb
  · intro h h1 h2 r hr
    have hcb : strContainsSub (jsToLower input) "cannot be" = true :=
      strContainsSub_of_prefix (List.isPrefixOf_iff_prefix.mp (by decide)) h
    rcases List.mem_map.mp hr with ⟨f, _, heq⟩
    rw [← heq]
    exact detectOperator_cannot_be _ hcb h1 h2

/-- C6 witness: both parts of the amended statement applied at concrete
phrases and field sets. -/
theorem c6_first_entry_operator_witness :
    (∀ r ∈ processNaturalLanguage ["age"] "Age must be greater than \"18\"",
      r.operator = "equals") ∧
    (∀ r ∈ processNaturalLanguage ["phone"] "Phone cannot be empty",
      r.operator = "not_equals") :=
  ⟨(c6_first_entry_operator ["age"] "Age must be greater than \"18\"").1 (by decide),
   (c6_first_entry_operator ["phone"] "Phone cannot be empty").2 (by decide) (by decide)
     (by decide)⟩

/-- Membership in the search loop output: exactly the per-row results with
positive score, at 1-based positions. -/
theorem scoredGo_mem (query : String) :
    ∀ i l r, r ∈ scoredGo query i l ↔
      ∃ j, j < l.length ∧ r = mkResult query (i + j) (l.getD j []) ∧ 0 < r.score := by
  intro i l
  induction l generalizing i with
  | nil => simp [scoredGo]
  | cons row t ih =>
    intro r
    rw [scoredGo]
    by_cases hpos : 0 < (mkResult query i row).score
    · rw [if_pos hpos, List.mem_cons]
      constructor
      · rintro (rfl | hr)
        · exact ⟨0, by simp, by simp, hpos⟩
        · rcases (ih (i + 1) r).mp hr with ⟨j, hj, hr2, hs⟩
          refine ⟨j + 1, by simpa using hj, ?_, hs⟩
          rw [hr2]
          congr 1
          omega
      · rintro ⟨j, hj, hr2, hs⟩
        match j with
        | 0 => left; simpa using hr2
        | j + 1 =>
          right
          refine (ih (i + 1) r).mpr ⟨j, by simpa using hj, ?_, hs⟩
          rw [hr2]
          congr 1
          omega
    · rw [if_neg hpos]
      constructor
      · intro hr
        rcases (ih (i + 1) r).mp hr with ⟨j, hj, hr2, hs⟩
        refine ⟨j + 1, by simpa using hj, ?_, hs⟩
        rw [hr2]; congr 1; omega
      · rintro ⟨j, hj, hr2, hs⟩
        match j with
        | 0 =>
          exfalso
          apply hpos
          simp only [List.getD_cons_zero, Nat.add_zero] at hr2
          rw [hr2] at hs
          exact hs
        | j + 1 =>
          refine (ih (i + 1) r).mpr ⟨j, by simpa using hj, ?_, hs⟩
          rw [hr2]; congr 1; omega

/-- Every result of the loop started at index `i` has a larger row number. -/
theorem scoredGo_rowIndex_bound (query : String) :
    ∀ i l r, r ∈ scoredGo query i l → i < r.rowIndex := by
  intro i l
  induction l generalizing i with
  | nil => intro r h; cases h
  | cons row t ih =>
    intro r h
    rw [scoredGo] at h
    by_cases hpos : 0 < (mkResult query i row).score
    · rw [if_pos hpos, List.mem_cons] at h
      rcases h with rfl | h
      · simp [mkResult]
      · exact Nat.lt_of_succ_lt (ih (i + 1) r h)
    · rw [if_neg hpos] at h
      exact Nat.lt_of_succ_lt (ih (i + 1) r h)

/-- The unsorted hit list has strictly increasing row numbers. -/
theorem scoredGo_rowIndex_pairwise (query : String) :
    ∀ i l, (scoredGo query i l).Pairwise (fun a b => a.rowIndex < b.rowIndex) := by
  intro i l
  induction l generalizing i with
  | nil => exact List.Pairwise.nil
  | cons row t ih =>
    rw [scoredGo]
    by_cases hpos : 0 < (mkResult query i row).score
    · rw [if_pos hpos]
      refine List.Pairwise.cons ?_ (ih (i + 1))
      intro b hb
      have := scoredGo_rowIndex_bound query (i + 1) t b hb
      simp only [mkResult]
      omega
    · rw [if_neg hpos]
      exact ih (i + 1)

/-- C7 counterexample: on the blank query `" "` the guard returns the empty
result list even though the single row (whose field value is `" "`) scores
20 by the exact-match rule, so search does not return every positive-score
row for every query. -/
theorem c7_blank_query_guard_cex :
    searchData [[("a", Value.vStr " ")]] " " = [] ∧
    0 < (mkResult " " 0 [("a", Value.vStr " ")]).score := by
  decide

/-- C7 (amended): for every table and every query whose trimmed text is
nonempty, search returns exactly the rows whose total score is positive,
sorted in descending score order with equal-score rows in original table
order, and a query matching no row returns the empty list; a blank query
always returns the empty list regardless of scores. -/
theorem c7_search_results_spec (data : Table) (query : String)
    (hq : jsTrimString query ≠ "") :
    (∀ r, r ∈ searchData data query ↔
      ∃ j, j < data.length ∧ r = mkResult query j (data.getD j []) ∧ 0 < r.score) ∧
    (searchData data query).Pairwise (fun a b => b.score ≤ a.score) ∧
    (searchData data query).Pairwise (fun a b => a.score = b.score → a.rowIndex < b.rowIndex) ∧
    ((∀ j, j < data.length → (mkResult query j (data.getD j [])).score = 0) →
      searchData data query = []) := by
  by_cases hd : data.isEmpty
  · have hdata : data = [] := List.isEmpty_iff.mp hd
    subst hdata
    simp [searchData]
  · have hguard : searchData data query =
        List.insertionSort searchRel (scoredResults data query) := by
      rw [searchData, if_neg]
      simp [hq, hd]
    have hmem : ∀ r, r ∈ searchData data query ↔
        ∃ j, j < data.length ∧ r = mkResult query j (data.getD j []) ∧ 0 < r.score := by
      intro r
      rw [hguard, List.mem_insertionSort, scoredResults, scoredGo_mem]
      simp
    have hsorted : (searchData data query).Pairwise searchRel := by
      rw [hguard]
      exact List.sorted_insertionSort searchRel _
    refine ⟨hmem, ?_, ?_, ?_⟩
    · exact hsorted.imp (fun hab => by rcases hab with h | ⟨h, _⟩ <;> omega)
    · have hperm := List.perm_insertionSort searchRel (scoredResults data query)
      have hbase : ((scoredResults data query).map SearchResult.rowIndex).Nodup :=
        List.pairwise_map.mpr ((scoredGo_rowIndex_pairwise query 0 data).imp
          (fun h => Nat.ne_of_lt h))
      have hout : ((searchData data query).map SearchResult.rowIndex).Nodup := by
        rw [hguard]
        exact ((hperm.map SearchResult.rowIndex).symm).nodup hbase
      have hne : (searchData data query).Pairwise
          (fun a b => a.rowIndex ≠ b.rowIndex) := List.pairwise_map.mp hout
      exact (hsorted.and hne).imp
        (fun hab heq => by rcases hab with ⟨h | ⟨h, hle⟩, hn⟩ <;> omega)
    · intro hz
      rw [List.eq_nil_iff_forall_not_mem]
      intro r hr
      rcases (hmem r).mp hr with ⟨j, hj, hr2, hs⟩
      have := hz j hj
      rw [hr2] at hs
      omega

/-- C7 witness: the amended statement applied to a concrete query and table
with a nonempty trimmed query. -/
theorem c7_search_results_spec_witness :
    jsTrimString "john" ≠ "" ∧
    (searchData [[("name", Value.vStr "John")]] "john").Pairwise
      (fun a b => b.score ≤ a.score) :=
  ⟨by decide, (c7_search_results_spec [[("name", Value.vStr "John")]] "john"
    (by decide)).2.1⟩

/-- C8: the applier is total and the catch block is exact: either the switch
body succeeds and its table is returned with no failure recorded, or the
internal exception is caught, the record is marked failed, and the returned
table is the untouched input. -/
theorem c8_applier_total_catch (sem : RegexSem) (fields : List String) (data : Table)
    (m : DataModification) :
    (∃ t, applyCore sem fields data m = .ok t ∧
      applyModification sem fields data m = (t, false)) ∨
    (applyCore sem fields data m = .error () ∧
      applyModification sem fields data m = (data, true)) := by
  cases h : applyCore sem fields data m with
  | ok t => exact Or.inl ⟨t, rfl, by simp [applyModification, h]⟩
  | error e => cases e; exact Or.inr ⟨rfl, by simp [applyModification, h]⟩

/-- Store discipline of the `update` branch: the input heap is preserved and
every output address is an input address or fresh. -/
theorem updateGoSt_spec (m : DataModification) :
    ∀ refs st i p, updateGoSt m st i refs = .ok p →
      st <+: p.1 ∧ ∀ b ∈ p.2, b ∈ refs ∨ st.length ≤ b := by
  intro refs
  induction refs with
  | nil =>
    intro st i p h
    cases h
    exact ⟨List.prefix_refl st, by intro b hb; cases hb⟩
  | cons a t ih =>
    intro st i p h
    cases hsel : rowSelected m i (readRow st a) with
    | error e =>
      cases e
      simp only [updateGoSt, hsel, error_bind] at h
      exact Except.noConfusion h
    | ok sel =>
      cases sel with
      | true =>
        simp only [updateGoSt, hsel, ok_bind, if_true, alloc] at h
        cases hrec : updateGoSt m (st ++ [setField (readRow st a) m.field (.vStr m.newValue)])
            (i + 1) t with
        | error e => cases e; rw [exbind_error _ hrec] at h; exact Except.noConfusion h
        | ok q =>
          rw [exbind_ok _ hrec] at h
          cases h
          obtain ⟨hpre, hmem⟩ := ih _ (i + 1) q hrec
          refine ⟨(List.prefix_append st _).trans hpre, ?_⟩
          intro b hb
          rcases List.mem_cons.mp hb with rfl | hb
          · right; simp
          · rcases hmem b hb with hm | hm
            · exact Or.inl (List.mem_cons_of_mem a hm)
            · right
              rw [List.length_append] at hm
              omega
      | false =>
        simp only [updateGoSt, hsel, ok_bind, if_false] at h
        cases hrec : updateGoSt m st (i + 1) t with
        | error e => cases e; rw [exbind_error _ hrec] at h; exact Except.noConfusion h
        | ok q =>
          rw [exbind_ok _ hrec] at h
          cases h
          obtain ⟨hpre, hmem⟩ := ih _ (i + 1) q hrec
          refine ⟨hpre, ?_⟩
          intro b hb
          rcases List.mem_cons.mp hb with rfl | hb
          · exact Or.inl (List.mem_cons_self b t)
          · rcases hmem b hb with hm | hm
            · exact Or.inl (List.mem_cons_of_mem a hm)
            · exact Or.inr hm

/-- Store discipline of the `transform` branch. -/
theorem transformGoSt_spec (m : DataModification) :
    ∀ refs st i p, transformGoSt m st i refs = .ok p →
      st <+: p.1 ∧ ∀ b ∈ p.2, b ∈ refs ∨ st.length ≤ b := by
  intro refs
  induction refs with
  | nil =>
    intro st i p h
    cases h
    exact ⟨List.prefix_refl st, by intro b hb; cases hb⟩
  | cons a t ih =>
    intro st i p h
    cases hsel : rowSelected m i (readRow st a) with
    | error e =>
      cases e
      simp only [transformGoSt, hsel, error_bind] at h
      exact Except.noConfusion h
    | ok sel =>
      cases sel with
      | true =>
        simp only [transformGoSt, hsel, ok_bind, if_true, alloc] at h
        cases hrec : transformGoSt m
            (st ++ [setField (readRow st a) m.field
              (transformValue (getFieldV (readRow st a) m.field) m.newValue)]) (i + 1) t with
        | error e => cases e; rw [exbind_error _ hrec] at h; exact Except.noConfusion h
        | ok q =>
          rw [exbind_ok _ hrec] at h
          cases h
          obtain ⟨hpre, hmem⟩ := ih _ (i + 1) q hrec
          refine ⟨(List.prefix_append st _).trans hpre, ?_⟩
          intro b hb
          rcases List.mem_cons.mp hb with rfl | hb
          · right; simp
          · rcases hmem b hb with hm | hm
            · exact Or.inl (List.mem_cons_of_mem a hm)
            · right
              rw [List.length_append] at hm
              omega
      | false =>
        simp only [transformGoSt, hsel, ok_bind, if_false] at h
        cases hrec : transformGoSt m st (i + 1) t with
        | error e => cases e; rw [exbind_error _ hrec] at h; exact Except.noConfusion h
        | ok q =>
          rw [exbind_ok _ hrec] at h
          cases h
          obtain ⟨hpre, hmem⟩ := ih _ (i + 1) q hrec
          refine ⟨hpre, ?_⟩
          intro b hb
          rcases List.mem_cons.mp hb with rfl | hb
          · exact Or.inl (List.mem_cons_self b t)
          · rcases hmem b hb with hm | hm
            · exact Or.inl (List.mem_cons_of_mem a hm)
            · exact Or.inr hm

/-- Store discipline of the `replace` branch. -/
theorem replaceGoSt_spec (sem : RegexSem) (m : DataModification) :
    ∀ refs st i p, replaceGoSt sem m st i refs = .ok p →
      st <+: p.1 ∧ ∀ b ∈ p.2, b ∈ refs ∨ st.length ≤ b := by
  intro refs
  induction refs with
  | nil =>
    intro st i p h
    cases h
    exact ⟨List.prefix_refl st, by intro b hb; cases hb⟩
  | cons a t ih =>
    intro st i p h
    cases hsel : rowSelected m i (readRow st a) with
    | error e =>
      cases e
      simp only [replaceGoSt, hsel, error_bind] at h
      exact Except.noConfusion h
    | ok sel =>
      cases sel with
      | true =>
        simp only [replaceGoSt, hsel, ok_bind, if_true, alloc] at h
        cases hrep : jsRegexReplaceGI sem ((splitChar ' ' m.condition).get? 2) m.newValue
            (jsToString (getFieldV (readRow st a) m.field)) with
        | error e => cases e; rw [exbind_error _ hrep] at h; exact Except.noConfusion h
        | ok nv =>
          rw [exbind_ok _ hrep] at h
          cases hrec : replaceGoSt sem m (st ++ [setField (readRow st a) m.field (.vStr nv)])
              (i + 1) t with
          | error e => cases e; rw [exbind_error _ hrec] at h; exact Except.noConfusion h
          | ok q =>
            rw [exbind_ok _ hrec] at h
            cases h
            obtain ⟨hpre, hmem⟩ := ih _ (i + 1) q hrec
            refine ⟨(List.prefix_append st _).trans hpre, ?_⟩
            intro b hb
            rcases List.mem_cons.mp hb with rfl | hb
            · right; simp
            · rcases hmem b hb with hm | hm
              · exact Or.inl (List.mem_cons_of_mem a hm)
              · right
                rw [List.length_append] at hm
                omega
      | false =>
        simp only [replaceGoSt, hsel, ok_bind, if_false] at h
        cases hrec : replaceGoSt sem m st (i + 1) t with
        | error e => cases e; rw [exbind_error _ hrec] at h; exact Except.noConfusion h
        | ok q =>
          rw [exbind_ok _ hrec] at h
          cases h
          obtain ⟨hpre, hmem⟩ := ih _ (i + 1) q hrec
          refine ⟨hpre, ?_⟩
          intro b hb
          rcases List.mem_cons.mp hb with rfl | hb
          · exact Or.inl (List.mem_cons_self b t)
          · rcases hmem b hb with hm | hm
            · exact Or.inl (List.mem_cons_of_mem a hm)
            · exact Or.inr hm

/-- Store discipline of the `delete` branch (no allocation, addresses kept). -/
theorem deleteGoSt_spec (m : DataModification) :
    ∀ refs st i p, deleteGoSt m st i refs = .ok p →
      st <+: p.1 ∧ ∀ b ∈ p.2, b ∈ refs ∨ st.length ≤ b := by
  intro refs
  induction refs with
  | nil =>
    intro st i p h
    cases h
    exact ⟨List.prefix_refl st, by intro b hb; cases hb⟩
  | cons a t ih =>
    intro st i p h
    cases hsel : rowSelected m i (readRow st a) with
    | error e =>
      cases e
      simp only [deleteGoSt, hsel, error_bind] at h
      exact Except.noConfusion h
    | ok sel =>
      simp only [deleteGoSt, hsel, ok_bind] at h
      cases hrec : deleteGoSt m st (i + 1) t with
      | error e => cases e; rw [exbind_error _ hrec] at h; exact Except.noConfusion h
      | ok q =>
        rw [exbind_ok _ hrec] at h
        cases h
        obtain ⟨hpre, hmem⟩ := ih _ (i + 1) q hrec
        refine ⟨hpre, ?_⟩
        intro b hb
        cases sel with
        | true =>
          rcases hmem b (by simpa using hb) with hm | hm
          · exact Or.inl (List.mem_cons_of_mem a hm)
          · exact Or.inr hm
        | false =>
          rcases List.mem_cons.mp (by simpa using hb) with rfl | hb2
          · exact Or.inl (List.mem_cons_self b t)
          · rcases hmem b hb2 with hm | hm
            · exact Or.inl (List.mem_cons_of_mem a hm)
            · exact Or.inr hm

/-- Store discipline of the whole switch body. -/
theorem applyCoreSt_spec (sem : RegexSem) (fields : List String) (st : Store)
    (refs : List Nat) (m : DataModification) (p : Store × List Nat)
    (h : applyCoreSt sem fields st refs m = .ok p) :
    st <+: p.1 ∧ ∀ b ∈ p.2, b ∈ refs ∨ st.length ≤ b := by
  cases hop : m.operation with
  | update =>
    rw [applyCoreSt, hop] at h
    exact updateGoSt_spec m refs st 0 p h
  | delete =>
    rw [applyCoreSt, hop] at h
    exact deleteGoSt_spec m refs st 0 p h
  | add =>
    simp only [applyCoreSt, hop, alloc] at h
    cases h
    refine ⟨List.prefix_append st _, ?_⟩
    intro b hb
    rcases List.mem_append.mp hb with hm | hm
    · exact Or.inl hm
    · rcases List.mem_singleton.mp hm with rfl
      exact Or.inr (Nat.le_refl _)
  | replace =>
    rw [applyCoreSt, hop] at h
    exact replaceGoSt_spec sem m refs st 0 p h
  | transform =>
    rw [applyCoreSt, hop] at h
    exact transformGoSt_spec m refs st 0 p h

/-- C9: the applier never mutates the input table.  In the store-passing
embedding: the output heap extends the input heap (every input row object
still holds exactly its old fields and values), and every row reference in
the output table is either one of the input references (an unmodified,
shared row object) or a fresh allocation (every modified row is a fresh
object); this holds on the success path and on the caught-exception path. -/
theorem c9_applier_no_mutation (sem : RegexSem) (fields : List String) (st : Store)
    (refs : List Nat) (m : DataModification) :
    st <+: (applyModificationSt sem fields st refs m).1 ∧
    ∀ b ∈ (applyModificationSt sem fields st refs m).2.1, b ∈ refs ∨ st.length ≤ b := by
  cases hc : applyCoreSt sem fields st refs m with
  | ok p =>
    have hs := applyCoreSt_spec sem fields st refs m p hc
    simp only [applyModificationSt, hc]
    exact hs
  | error e =>
    cases e
    simp only [applyModificationSt, hc]
    exact ⟨List.prefix_refl st, fun b hb => Or.inl hb⟩

/-- Splitting a list that starts with a separator-free block followed by a
separator: the block becomes the first segment. -/
theorem splitCharAux_sep_append (sep : Char) :
    ∀ l1 l2 acc, (∀ c ∈ l1, c ≠ sep) →
      splitCharAux sep (l1 ++ sep :: l2) acc = (acc.reverse ++ l1) :: splitCharAux sep l2 [] := by
  intro l1
  induction l1 with
  | nil => intro l2 acc h; simp [splitCharAux]
  | cons c t ih =>
    intro l2 acc h
    have hc : c ≠ sep := h c (List.mem_cons_self c t)
    simp only [List.cons_append, splitCharAux, if_neg hc]
    show splitCharAux sep (t ++ sep :: l2) (c :: acc) =
      (acc.reverse ++ c :: t) :: splitCharAux sep l2 []
    rw [ih l2 (c :: acc) (fun d hd => h d (List.mem_cons_of_mem c hd))]
    simp

/-- `split(' ')` of a space-free field name followed by a space and a rest. -/
theorem splitChar_eq_parts (f : String) (rest : String) (parts : List String)
    (hf : ∀ c ∈ f.data, c ≠ ' ')
    (hr : (splitCharAux ' ' rest.data []).map String.mk = parts) :
    splitChar ' ' (f ++ " " ++ rest) = f :: parts := by
  rw [splitChar, String.data_append, String.data_append]
  have h1 : (" " : String).data = [' '] := rfl
  rw [h1]
  have h2 : f.data ++ [' '] ++ rest.data = f.data ++ ' ' :: rest.data := by simp
  rw [h2, splitCharAux_sep_append ' ' f.data rest.data [] hf]
  simp only [List.reverse_nil, List.nil_append, List.map, hr]

/-- C10: the condition evaluator coerces any falsy stored value (number `0`,
boolean `false`, `null`, `undefined`/absent, empty string) to the empty
string before comparison; in particular, for any space-free field name, the
clause `field = 0` never matches a row whose field holds the number `0`, and
the clause `field = false` never matches a row whose field holds the boolean
`false`. -/
theorem c10_falsy_coerced_to_empty (row : Row) (f : String) (hf : ∀ c ∈ f.data, c ≠ ' ') :
    (jsFalsy (getFieldV row f) = true → condFieldValue row f = "") ∧
    (getFieldV row f = Value.vNum 0 → evaluateCondition row (f ++ " = 0") = .ok false) ∧
    (getFieldV row f = Value.vBool false →
      evaluateCondition row (f ++ " = false") = .ok false) := by
  refine ⟨?_, ?_, ?_⟩
  · intro h
    simp [condFieldValue, h]
    rfl
  · intro hv
    have hsplit : splitChar ' ' (f ++ " " ++ "= 0") = [f, "=", "0"] :=
      splitChar_eq_parts f "= 0" ["=", "0"] hf rfl
    have heq : f ++ " = 0" = f ++ " " ++ "= 0" := by
      rw [String.ext_iff]
      simp [String.data_append]
    have hne : (f ++ " = 0") ≠ "" := by
      intro h
      have h2 := congrArg String.data h
      rw [String.data_append] at h2
      simp at h2
    have hfv : condFieldValue row f = "" := by
      rw [condFieldValue, hv]; rfl
    rw [evaluateCondition, if_neg hne, heq, hsplit]
    simp [hfv]
    decide
  · intro hv
    have hsplit : splitChar ' ' (f ++ " " ++ "= false") = [f, "=", "false"] :=
      splitChar_eq_parts f "= false" ["=", "false"] hf rfl
    have heq : f ++ " = false" = f ++ " " ++ "= false" := by
      rw [String.ext_iff]
      simp [String.data_append]
    have hne : (f ++ " = false") ≠ "" := by
      intro h
      have h2 := congrArg String.data h
      rw [String.data_append] at h2
      simp at h2
    have hfv : condFieldValue row f = "" := by
      rw [condFieldValue, hv]; rfl
    rw [evaluateCondition, if_neg hne, heq, hsplit]
    simp [hfv]
    decide

/-- C10 witness: both comparison clauses evaluated on a concrete row holding
the number `0` and the boolean `false`. -/
theorem c10_falsy_coerced_to_empty_witness :
    evaluateCondition [("x", Value.vNum 0), ("y", Value.vBool false)] "x = 0" = .ok false ∧
    evaluateCondition [("x", Value.vNum 0), ("y", Value.vBool false)] "y = false" = .ok false :=
  ⟨(c10_falsy_coerced_to_empty [("x", Value.vNum 0), ("y", Value.vBool false)] "x"
      (by decide)).2.1 (by decide),
   (c10_falsy_coerced_to_empty [("x", Value.vNum 0), ("y", Value.vBool false)] "y"
      (by decide)).2.2 (by decide)⟩
